import Mathlib

/-!
Verification of the unrestricted Kohn-Sham linear-response (TDDFT) core
`pyscf/tdscf/uks.py`, class `TDDFTNoHybrid` (`get_vind`, `kernel`).

The Python/numpy code is shallowly embedded over an arbitrary linear ordered
field `K` (instantiated at `ℝ` where the semantics of `numpy.sqrt` matter).
Flat numpy arrays become `List K`, 2-D arrays become `List (List K)` (lists of
rows), and `numpy.sqrt` is passed in as an explicit function argument `sqrt`
so that all definitions stay computable.  External collaborators that are not
part of the verified source file (`_gen_uhf_response`, `_ao2mo.nr_e2`,
`lib.davidson1`, `uhf_symm.get_orbsym`, `lib.chkfile`) are treated as the
specification treats them: abstract inputs, universally quantified in the
theorems, except `lib.norm` which is modelled from the spec as the Euclidean
norm.  A separate value domain `FP` with `inf`/`nan` elements models the
IEEE-754 special-value propagation of numpy for the one claim that is about
non-finite results.
-/

namespace TDUKS

variable {K : Type*} [LinearOrderedField K]

/-- Occupied orbital indices of one spin channel, mirroring
`numpy.where(mo_occ>0)[0]` (uks.py lines 57-58): the indices whose occupation
is strictly positive, in ascending order. -/
def occIdx (occ : List K) : List Nat :=
  (List.range occ.length).filter (fun i => decide (0 < occ.getD i 0))

/-- Virtual orbital indices of one spin channel, mirroring
`numpy.where(mo_occ==0)[0]` (uks.py lines 59-60): the indices whose occupation
equals zero, in ascending order. -/
def virIdx (occ : List K) : List Nat :=
  (List.range occ.length).filter (fun i => decide (occ.getD i 0 = 0))

/-- Row-major flattening of the outer difference
`mo_energy[viridx].reshape(-1,1) - mo_energy[occidx]` (uks.py lines 76-77,
150-151): for each virtual index `a` (outer) and occupied index `i` (inner)
the entry is `mo_energy[a] - mo_energy[i]`. -/
def eaiSpin (moe : List K) (occ : List K) : List K :=
  ((virIdx occ).map (fun a =>
    (occIdx occ).map (fun i => moe.getD a 0 - moe.getD i 0))).flatten

/-- Row-major flattening of the per-spin symmetry-forbidden mask
`(orbsym[viridx].reshape(-1,1) ^ orbsym[occidx]) != wfnsym`
(uks.py lines 72-73). -/
def symForbidSpin (orbsym : List Nat) (occ : List K) (wfnsym : Nat) : List Bool :=
  ((virIdx occ).map (fun a =>
    (occIdx occ).map (fun i =>
      decide (orbsym.getD a 0 ^^^ orbsym.getD i 0 ≠ wfnsym)))).flatten

/-- Elementwise masked assignment `v[mask] = 0` (uks.py lines 80, 91): the
entry is zeroed where the boolean mask holds and kept otherwise. -/
def maskZero (mask : List Bool) (v : List K) : List K :=
  List.zipWith (fun x b => if b then 0 else x) v mask

/-- Sum of squares of a flat vector; `lib.norm(v)**2` equals this value. -/
def sumSq (v : List K) : K :=
  (v.map (fun x => x ^ 2)).sum

/-- Modelled from the spec: `lib.norm` is the external Euclidean vector norm
collaborator (pyscf.lib, not part of the verified file); per spec section 4.6
`norm = ||X||^2 - ||Y||^2` with the Euclidean norm. -/
def libNorm (sqrt : K → K) (v : List K) : K :=
  sqrt (sumSq v)

/-- Dot product of two flat vectors. -/
def dot (u v : List K) : K :=
  (List.zipWith (· * ·) u v).sum

/-- Transpose of a rows-list matrix. -/
def transposeM (A : List (List K)) : List (List K) :=
  (List.range (A.headD []).length).map (fun j => A.map (fun r => r.getD j 0))

/-- Matrix product of rows-list matrices, `numpy.dot`. -/
def matMul (A B : List (List K)) : List (List K) :=
  A.map (fun r => (transposeM B).map (fun c => dot r c))

/-- Elementwise matrix sum. -/
def matAdd (A B : List (List K)) : List (List K) :=
  List.zipWith (List.zipWith (· + ·)) A B

/-- Column selection `A[:, idx]` used for `mo_coeff[s][:,occidx]` and
`mo_coeff[s][:,viridx]` (uks.py lines 65-68). -/
def colSelect (A : List (List K)) (idx : List Nat) : List (List K) :=
  A.map (fun r => idx.map (fun j => r.getD j 0))

/-- Row-major reshape of a flat vector into `rows` rows of `cols` entries,
mirroring `v.reshape(rows, cols)`. -/
def reshapeM : Nat → Nat → List K → List (List K)
  | 0, _, _ => []
  | rows + 1, cols, v => v.take cols :: reshapeM rows cols (v.drop cols)

/-- Scalar multiplication of a rows-list matrix, `M * c`. -/
def scaleM (c : K) (A : List (List K)) : List (List K) :=
  A.map (fun r => r.map (fun x => x * c))

/-- Sum of squares of all entries of a rows-list matrix. -/
def sumSqM (A : List (List K)) : K :=
  (A.map sumSq).sum

/-- Mean-field state consumed by the solver: per-spin orbital coefficients,
orbital energies and occupations (`mf.mo_coeff`, `mf.mo_energy`, `mf.mo_occ`),
plus the hybrid classification `mf._numint.libxc.is_hybrid_xc(mf.xc)` of the
exchange-correlation functional. -/
structure MeanField (K : Type*) where
  mo_coeff : List (List K) × List (List K)
  mo_energy : List K × List K
  mo_occ : List K × List K
  xc_hybrid : Bool

/-- State captured by the closure `vind` inside `TDDFTNoHybrid.get_vind`
(uks.py lines 47-85): the diagonal basis vectors, the optional symmetry mask,
the per-spin pair counts and the selected orbital-coefficient blocks. -/
structure VindEnv (K : Type*) where
  e_ai : List K
  dai : List K
  edai : List K
  hdiag : List K
  sym_forbid : Option (List Bool)
  nocca : Nat
  noccb : Nat
  nvira : Nat
  nvirb : Nat
  orboa : List (List K)
  orbob : List (List K)
  orbva : List (List K)
  orbvb : List (List K)

/-- Construction performed by `TDDFTNoHybrid.get_vind` before the closure is
returned (uks.py lines 47-85): build the excitation space, the optional
symmetry mask (only when a target irrep `wfnsym` is given and molecular
symmetry is enabled), the concatenated alpha-then-beta energy-difference
vector `e_ai` (zeroed at masked positions before any derived quantity),
`dai = sqrt(e_ai)`, `edai = e_ai * dai` and `hdiag = e_ai ** 2`.  The orbital
symmetry labels `orbsym` come from the external `uhf_symm.get_orbsym`. -/
def get_vind_env (sqrt : K → K) (mf : MeanField K) (wfnsym : Option Nat)
    (molSymmetry : Bool) (orbsym : List Nat × List Nat) : VindEnv K :=
  let occidxa := occIdx mf.mo_occ.1
  let occidxb := occIdx mf.mo_occ.2
  let viridxa := virIdx mf.mo_occ.1
  let viridxb := virIdx mf.mo_occ.2
  let maskOpt : Option (List Bool) :=
    match wfnsym, molSymmetry with
    | some w, true =>
        some (symForbidSpin orbsym.1 mf.mo_occ.1 w ++ symForbidSpin orbsym.2 mf.mo_occ.2 w)
    | _, _ => none
  let e_ai0 := eaiSpin mf.mo_energy.1 mf.mo_occ.1 ++ eaiSpin mf.mo_energy.2 mf.mo_occ.2
  let e_ai := match maskOpt with
    | some m => maskZero m e_ai0
    | none => e_ai0
  { e_ai := e_ai
    dai := e_ai.map sqrt
    edai := List.zipWith (· * ·) e_ai (e_ai.map sqrt)
    hdiag := e_ai.map (fun x => x ^ 2)
    sym_forbid := maskOpt
    nocca := occidxa.length
    noccb := occidxb.length
    nvira := viridxa.length
    nvirb := viridxb.length
    orboa := colSelect mf.mo_coeff.1 occidxa
    orbob := colSelect mf.mo_coeff.2 occidxb
    orbva := colSelect mf.mo_coeff.1 viridxa
    orbvb := colSelect mf.mo_coeff.2 viridxb }

/-- Per-trial transition-density construction of the operator (uks.py lines
94-100): the already scaled vector `z = dai * zs[i]` is split into the alpha
block of length `nocca*nvira` and the beta remainder, each reshaped to a
(virtual x occupied) matrix, transformed to the AO basis as
`dm = orbv @ Z @ orbo.T` and symmetrized as `dm + dm.T`. -/
def vindDm (env : VindEnv K) (z : List K) : List (List K) × List (List K) :=
  let za := reshapeM env.nvira env.nocca (z.take (env.nocca * env.nvira))
  let zb := reshapeM env.nvirb env.noccb (z.drop (env.nocca * env.nvira))
  let dma := matMul (matMul env.orbva za) (transposeM env.orboa)
  let dmb := matMul (matMul env.orbvb zb) (transposeM env.orbob)
  (matAdd dma (transposeM dma), matAdd dmb (transposeM dmb))

/-- Body of the closure `vind` after the symmetry masking of the trial batch
(uks.py lines 92-109): scale each trial vector by `dai`, build the AO
transition densities, apply the external response-plus-transform pipeline
`resp` (the composite of `_gen_uhf_response`, `_ao2mo.nr_e2` and the hstack of
the two spin blocks, all external collaborators, kept abstract), then add the
diagonal term `edai * z` and rescale by `dai`. -/
def vindCore (resp : List (List (List K) × List (List K)) → List (List K))
    (env : VindEnv K) (zs : List (List K)) : List (List K) :=
  let dmvo := zs.map (fun z => vindDm env (List.zipWith (· * ·) env.dai z))
  let hx0 := resp dmvo
  (hx0.zip zs).map (fun p =>
    List.zipWith (· * ·)
      (List.zipWith (· + ·) p.1 (List.zipWith (· * ·) env.edai p.2)) env.dai)

/-- Symmetry preprocessing of the trial batch (uks.py lines 89-91): when the
mask is active every trial vector is zeroed at each masked position; when it
is inactive the batch is passed through unchanged. -/
def maskTrials (symForbid : Option (List Bool)) (zs : List (List K)) : List (List K) :=
  match symForbid with
  | some m => zs.map (maskZero m)
  | none => zs

/-- Complete linear-response operator `vind` (uks.py lines 87-109): symmetry
preprocessing followed by the operator body. -/
def vind (resp : List (List (List K) × List (List K)) → List (List K))
    (env : VindEnv K) (zs : List (List K)) : List (List K) :=
  vindCore resp env (maskTrials env.sym_forbid zs)

/-- Heap-passing rendering of one invocation of `vind`, making numpy's object
mutation explicit: the heap is the list of existing trial-batch arrays, the
caller's batch is named by its heap index `r`.  The code's only writes into a
trial batch are `zs = numpy.copy(zs)` (allocates a fresh array at the end of
the heap) followed by `zs[:,sym_forbid] = 0` (an in-place write into that
fresh copy); without an active mask no trial-batch array is written at all.
All captured `VindEnv` data is only ever read, so it is passed by value. -/
def vindHeap (resp : List (List (List K) × List (List K)) → List (List K))
    (env : VindEnv K) (heap : List (List (List K))) (r : Nat) :
    List (List (List K)) × List (List K) :=
  match env.sym_forbid with
  | some m =>
      let heap1 := heap ++ [heap.getD r []]
      let heap2 := heap1.set heap.length ((heap1.getD heap.length []).map (maskZero m))
      (heap2, vindCore resp env (heap2.getD heap.length []))
  | none => (heap, vindCore resp env (heap.getD r []))

/-- Accepted eigenpair as stored in `self.xy` (uks.py lines 169-172): the
nested tuple `((X_alpha, X_beta), (Y_alpha, Y_beta))` of per-spin
(virtual x occupied) amplitude matrices. -/
structure EigPair (K : Type*) where
  xa : List (List K)
  xb : List (List K)
  ya : List (List K)
  yb : List (List K)

/-- Unmasked concatenated energy-difference vector recomputed by `kernel`
from the current mean-field state (uks.py lines 140-152); unlike the operator
basis of `get_vind_env` it takes no symmetry-mask data at all. -/
def kernelEai (mf : MeanField K) : List K :=
  eaiSpin mf.mo_energy.1 mf.mo_occ.1 ++ eaiSpin mf.mo_energy.2 mf.mo_occ.2

/-- Vector `zp = eai * z` of the reconstruction (uks.py line 161), where `eai`
is the elementwise square root of the unmasked energy differences. -/
def zpOf (eai : List K) (z : List K) : List K :=
  List.zipWith (· * ·) eai z

/-- Vector `zm = w/eai * z` of the reconstruction (uks.py line 162) with
`w = sqrt(w2)`. -/
def zmOf (sqrt : K → K) (eai : List K) (w2 : K) (z : List K) : List K :=
  List.zipWith (fun e zj => sqrt w2 / e * zj) eai z

/-- Vector `x = (zp + zm) * .5` of the reconstruction (uks.py line 163). -/
def xOf (sqrt : K → K) (eai : List K) (w2 : K) (z : List K) : List K :=
  List.zipWith (fun a b => (a + b) * (1 / 2)) (zpOf eai z) (zmOf sqrt eai w2 z)

/-- Vector `y = (zp - zm) * .5` of the reconstruction (uks.py line 164). -/
def yOf (sqrt : K → K) (eai : List K) (w2 : K) (z : List K) : List K :=
  List.zipWith (fun a b => (a - b) * (1 / 2)) (zpOf eai z) (zmOf sqrt eai w2 z)

/-- Pre-rescale norm `lib.norm(x)**2 - lib.norm(y)**2` of one reconstructed
pair (uks.py line 165). -/
def reconNorm (sqrt : K → K) (eai : List K) (w2 : K) (z : List K) : K :=
  libNorm sqrt (xOf sqrt eai w2 z) ^ 2 - libNorm sqrt (yOf sqrt eai w2 z) ^ 2

/-- Eigenpair stored when the norm test passes (uks.py lines 167-172): `x` and
`y` are split at `nocca*nvira` into the alpha and beta flat blocks, reshaped
to (virtual x occupied) matrices and rescaled by `norm = 1/sqrt(norm)`. -/
def acceptedPair (sqrt : K → K) (eai : List K) (nocca nvira noccb nvirb : Nat)
    (w2 : K) (z : List K) : EigPair K :=
  let x := xOf sqrt eai w2 z
  let y := yOf sqrt eai w2 z
  let c := 1 / sqrt (reconNorm sqrt eai w2 z)
  { xa := scaleM c (reshapeM nvira nocca (x.take (nocca * nvira)))
    xb := scaleM c (reshapeM nvirb noccb (x.drop (nocca * nvira)))
    ya := scaleM c (reshapeM nvira nocca (y.take (nocca * nvira)))
    yb := scaleM c (reshapeM nvirb noccb (y.drop (nocca * nvira))) }

/-- One iteration of the reconstruction loop (uks.py lines 157-172) for a
returned reduced eigenvalue `w2` and eigenvector `z`: `none` when `w2 < 0`
(the `continue`), `none` when the reconstructed norm is not positive (the
failed `if norm > 0` test), and otherwise the energy `w = sqrt(w2)` paired
with the rescaled amplitude blocks.  Both discards are silent: no error value
exists in the return type. -/
def reconStep (sqrt : K → K) (eai : List K) (nocca nvira noccb nvirb : Nat)
    (w2 : K) (z : List K) : Option (K × EigPair K) :=
  if w2 < 0 then none
  else if 0 < reconNorm sqrt eai w2 z then
    some (sqrt w2, acceptedPair sqrt eai nocca nvira noccb nvirb w2 z)
  else none

/-- Whole reconstruction loop over the solver output (uks.py lines 155-172):
the accepted `(w, (X, Y))` pairs in solver order with the skips applied. -/
def reconPairs (sqrt : K → K) (eai : List K) (nocca nvira noccb nvirb : Nat)
    (w2s : List K) (x1 : List (List K)) : List (K × EigPair K) :=
  (w2s.zip x1).filterMap (fun p => reconStep sqrt eai nocca nvira noccb nvirb p.1 p.2)

/-- Mutable attributes of the `TDDFTNoHybrid` solver object that `kernel`
reads or writes, together with the two checkpoint-store entries written via
the external `lib.chkfile.save` (modelled as option-valued slots under the
fixed keys `tddft/e` and `tddft/xy`). -/
structure TDState (K : Type*) where
  nstates : Nat
  wfnsym : Option Nat
  converged : Bool
  e : List K
  xy : List (EigPair K)
  chk_e : Option (List K)
  chk_xy : Option (List (EigPair K))

/-- Observable events of one `kernel` run, recorded in program order: the
construction of the operator basis by `get_vind`, the call into the external
diagonalization primitive `lib.davidson1`, the eigenpair-reconstruction loop,
and the checkpoint writes. -/
inductive KEvent (K : Type*) where
  | getVind (env : VindEnv K) : KEvent K
  | davidson (converged : Bool) (w2 : List K) : KEvent K
  | reconstruct (accepted : Nat) : KEvent K
  | chkSave : KEvent K

/-- Driver `TDDFTNoHybrid.kernel` (uks.py lines 113-178).  The hybrid test
`mf._numint.libxc.is_hybrid_xc(mf.xc)` guards everything: a hybrid functional
raises `RuntimeError` at once (modelled as `Except.error`), before any other
step, and the event trace stays empty.  Otherwise the requested root count is
resolved, `get_vind` builds the operator environment, the external
`lib.davidson1` output `(converged, w2, x1)` (an input here, since the solver
is an external collaborator) is recorded on the object, the eigenpairs are
reconstructed from the unmasked `kernelEai`, and energies and amplitudes are
stored on the object, written to the checkpoint slots and returned. -/
def kernel (sqrt : K → K) (mf : MeanField K) (molSymmetry : Bool)
    (orbsym : List Nat × List Nat) (dav : Bool × List K × List (List K))
    (nstates0 : Option Nat) (st : TDState K) :
    Except String (TDState K × List K × List (EigPair K)) × List (KEvent K) :=
  if mf.xc_hybrid then
    (Except.error "TDDFTNoHybrid cannot be used with hybrid functional", [])
  else
    let st1 := match nstates0 with
      | none => st
      | some n => { st with nstates := n }
    let env := get_vind_env sqrt mf st1.wfnsym molSymmetry orbsym
    let conv := dav.1
    let w2 := dav.2.1
    let x1 := dav.2.2
    let nocca := (occIdx mf.mo_occ.1).length
    let noccb := (occIdx mf.mo_occ.2).length
    let nvira := (virIdx mf.mo_occ.1).length
    let nvirb := (virIdx mf.mo_occ.2).length
    let eai := (kernelEai mf).map sqrt
    let prs := reconPairs sqrt eai nocca nvira noccb nvirb w2 x1
    let e := prs.map Prod.fst
    let xy := prs.map Prod.snd
    let st2 := { st1 with
      converged := conv
      e := e
      xy := xy
      chk_e := some e
      chk_xy := some xy }
    (Except.ok (st2, e, xy),
      [KEvent.getVind env, KEvent.davidson conv w2,
       KEvent.reconstruct prs.length, KEvent.chkSave])

/-- Value domain modelling numpy float64 special values over an exact scalar
carrier: a finite value, the two infinities, and NaN.  Rounding and overflow
of finite values are not modelled; only the special-value propagation rules
of IEEE-754 (which numpy follows, emitting warnings but never raising) are. -/
inductive FP (K : Type*) where
  | fin (x : K) : FP K
  | inf : FP K
  | ninf : FP K
  | nan : FP K

/-- Truth of being a finite value. -/
def FP.isFinite : FP K → Bool
  | FP.fin _ => true
  | _ => false

/-- IEEE addition on the special-value domain. -/
def FP.add : FP K → FP K → FP K
  | FP.nan, _ => FP.nan
  | _, FP.nan => FP.nan
  | FP.inf, FP.ninf => FP.nan
  | FP.ninf, FP.inf => FP.nan
  | FP.inf, _ => FP.inf
  | _, FP.inf => FP.inf
  | FP.ninf, _ => FP.ninf
  | _, FP.ninf => FP.ninf
  | FP.fin a, FP.fin b => FP.fin (a + b)

/-- IEEE multiplication on the special-value domain; an infinity times zero
is NaN. -/
def FP.mul : FP K → FP K → FP K
  | FP.nan, _ => FP.nan
  | _, FP.nan => FP.nan
  | FP.inf, FP.inf => FP.inf
  | FP.inf, FP.ninf => FP.ninf
  | FP.ninf, FP.inf => FP.ninf
  | FP.ninf, FP.ninf => FP.inf
  | FP.inf, FP.fin b => if b = 0 then FP.nan else if 0 < b then FP.inf else FP.ninf
  | FP.fin a, FP.inf => if a = 0 then FP.nan else if 0 < a then FP.inf else FP.ninf
  | FP.ninf, FP.fin b => if b = 0 then FP.nan else if 0 < b then FP.ninf else FP.inf
  | FP.fin a, FP.ninf => if a = 0 then FP.nan else if 0 < a then FP.ninf else FP.inf
  | FP.fin a, FP.fin b => FP.fin (a * b)

/-- IEEE division on the special-value domain; a nonzero finite value divided
by zero is a signed infinity (numpy emits a divide-by-zero warning and
proceeds), zero by zero is NaN. -/
def FP.div : FP K → FP K → FP K
  | FP.nan, _ => FP.nan
  | _, FP.nan => FP.nan
  | FP.inf, FP.inf => FP.nan
  | FP.inf, FP.ninf => FP.nan
  | FP.ninf, FP.inf => FP.nan
  | FP.ninf, FP.ninf => FP.nan
  | FP.inf, FP.fin b => if 0 ≤ b then FP.inf else FP.ninf
  | FP.ninf, FP.fin b => if 0 ≤ b then FP.ninf else FP.inf
  | FP.fin _, FP.inf => FP.fin 0
  | FP.fin _, FP.ninf => FP.fin 0
  | FP.fin a, FP.fin b =>
      if b = 0 then (if a = 0 then FP.nan else if 0 < a then FP.inf else FP.ninf)
      else FP.fin (a / b)

/-- IEEE square root on the special-value domain: the square root of a
negative value is NaN (numpy emits an invalid-value warning and proceeds). -/
def FP.sqrtf (sqrt : K → K) : FP K → FP K
  | FP.fin a => if a < 0 then FP.nan else FP.fin (sqrt a)
  | FP.inf => FP.inf
  | FP.ninf => FP.nan
  | FP.nan => FP.nan

/-- Reconstruction vector `eai = numpy.sqrt(eai)` (uks.py line 153) over the
special-value domain: the elementwise square root of the unmasked
energy-difference vector, with negative entries yielding NaN. -/
def eaiF (sqrt : K → K) (mf : MeanField K) : List (FP K) :=
  (kernelEai mf).map (fun t => FP.sqrtf sqrt (FP.fin t))

/-- Excitation energy `w = numpy.sqrt(w2[i])` (uks.py line 160) over the
special-value domain. -/
def wFOf (sqrt : K → K) (w2 : K) : FP K :=
  FP.sqrtf sqrt (FP.fin w2)

/-- Vector `zp = eai * z` (uks.py line 161) over the special-value domain,
for a solver eigenvector with finite entries. -/
def zpF (sqrt : K → K) (mf : MeanField K) (z : List K) : List (FP K) :=
  List.zipWith FP.mul (eaiF sqrt mf) (z.map FP.fin)

/-- Vector `zm = w/eai * z` (uks.py line 162) over the special-value domain:
the unguarded elementwise division by `eai` followed by the product with the
eigenvector entries. -/
def zmF (sqrt : K → K) (mf : MeanField K) (w2 : K) (z : List K) : List (FP K) :=
  List.zipWith (fun e zj => FP.mul (FP.div (wFOf sqrt w2) e) zj)
    (eaiF sqrt mf) (z.map FP.fin)

/-- Vector `x = (zp + zm) * .5` (uks.py line 163) over the special-value
domain. -/
def xF (sqrt : K → K) (mf : MeanField K) (w2 : K) (z : List K) : List (FP K) :=
  List.zipWith (fun a b => FP.mul (FP.add a b) (FP.fin (1 / 2)))
    (zpF sqrt mf z) (zmF sqrt mf w2 z)

/-- Concrete two-orbital single-spin mean-field state (occupied orbital 0 at
energy 0, virtual orbital 1 at energy 1, empty beta channel) used to
instantiate theorems at a concrete input. -/
def mfGap : MeanField ℝ :=
  { mo_coeff := ([], [])
    mo_energy := ([0, 1], [])
    mo_occ := ([1, 0], [])
    xc_hybrid := false }

/-- Concrete two-orbital single-spin mean-field state with an inverted gap
(occupied orbital 0 at energy 1, virtual orbital 1 at energy 0, empty beta
channel), whose virtual orbital lies below the occupied one. -/
def mfInverted : MeanField ℝ :=
  { mo_coeff := ([], [])
    mo_energy := ([1, 0], [])
    mo_occ := ([1, 0], [])
    xc_hybrid := false }

/-! Helper lemmas about the list primitives of the embedding. -/

theorem getD_zipWith_of_lt {α β γ : Type*} (f : α → β → γ) (a : List α) (b : List β)
    (i : Nat) (d : γ) (da : α) (db : β) (ha : i < a.length) (hb : i < b.length) :
    (List.zipWith f a b).getD i d = f (a.getD i da) (b.getD i db) := by
  have hz : i < (List.zipWith f a b).length := by
    rw [List.length_zipWith]; exact lt_min ha hb
  rw [List.getD_eq_getElem _ _ hz, List.getD_eq_getElem _ _ ha, List.getD_eq_getElem _ _ hb]
  exact List.getElem_zipWith

theorem getD_map_of_lt {α β : Type*} (f : α → β) (a : List α) (i : Nat) (d : β) (da : α)
    (ha : i < a.length) : (a.map f).getD i d = f (a.getD i da) := by
  have hm : i < (a.map f).length := by simpa using ha
  rw [List.getD_eq_getElem _ _ hm, List.getD_eq_getElem _ _ ha]
  exact List.getElem_map f

theorem length_zpOf (eai z : List K) : (zpOf eai z).length = min eai.length z.length := by
  simp [zpOf]

theorem length_zmOf (sqrt : K → K) (eai z : List K) (w2 : K) :
    (zmOf sqrt eai w2 z).length = min eai.length z.length := by
  simp [zmOf]

theorem length_xOf (sqrt : K → K) (eai z : List K) (w2 : K) :
    (xOf sqrt eai w2 z).length = min eai.length z.length := by
  simp [xOf, length_zpOf, length_zmOf]

theorem length_yOf (sqrt : K → K) (eai z : List K) (w2 : K) :
    (yOf sqrt eai w2 z).length = min eai.length z.length := by
  simp [yOf, length_zpOf, length_zmOf]

theorem sumSq_append (a b : List K) : sumSq (a ++ b) = sumSq a + sumSq b := by
  simp [sumSq]

theorem sumSq_nonneg (v : List ℝ) : 0 ≤ sumSq v := by
  refine List.sum_nonneg ?_
  intro x hx
  rcases List.mem_map.mp hx with ⟨y, _, rfl⟩
  exact sq_nonneg y

theorem sumSq_map_mul (v : List K) (c : K) :
    sumSq (v.map (fun x => x * c)) = sumSq v * c ^ 2 := by
  induction v with
  | nil => simp [sumSq]
  | cons a t ih =>
      simp only [sumSq, List.map_cons, List.sum_cons] at ih ⊢
      rw [ih]; ring

theorem sumSq_flatten (L : List (List K)) : sumSq L.flatten = (L.map sumSq).sum := by
  induction L with
  | nil => simp [sumSq]
  | cons a t ih =>
      simp only [List.flatten_cons, sumSq_append, ih, List.map_cons, List.sum_cons]

theorem sumSqM_scaleM (c : K) (A : List (List K)) :
    sumSqM (scaleM c A) = sumSqM A * c ^ 2 := by
  induction A with
  | nil => simp [sumSqM, scaleM]
  | cons r t ih =>
      simp only [sumSqM, scaleM, List.map_cons, List.sum_cons] at ih ⊢
      rw [sumSq_map_mul, ih]; ring

theorem reshapeM_flatten (rows cols : Nat) (v : List K) :
    (reshapeM rows cols v).flatten = v.take (rows * cols) := by
  induction rows generalizing v with
  | zero => simp [reshapeM]
  | succ r ih =>
      have harith : (r + 1) * cols = cols + r * cols := by ring
      simp only [reshapeM, List.flatten_cons, ih, harith, List.take_add]

theorem sumSqM_reshapeM (rows cols : Nat) (v : List K) :
    sumSqM (reshapeM rows cols v) = sumSq (v.take (rows * cols)) := by
  rw [← reshapeM_flatten rows cols v, sumSq_flatten, sumSqM]

theorem maskZero_getD_of_true (m : List Bool) (v : List K) (j : Nat)
    (hv : j < v.length) (hm : j < m.length) (ht : m.getD j false = true) :
    (maskZero m v).getD j 0 = 0 := by
  rw [maskZero, getD_zipWith_of_lt _ v m j 0 0 false hv hm, ht]
  simp

theorem maskZero_getD_of_false (m : List Bool) (v : List K) (j : Nat)
    (hv : j < v.length) (hm : j < m.length) (hf : m.getD j false = false) :
    (maskZero m v).getD j 0 = v.getD j 0 := by
  rw [maskZero, getD_zipWith_of_lt _ v m j 0 0 false hv hm, hf]
  simp

theorem length_maskZero (m : List Bool) (v : List K) :
    (maskZero m v).length = min v.length m.length := by
  simp [maskZero]

theorem eaiSpin_mem (moe occ : List K) (a i : Nat)
    (ha : a ∈ virIdx occ) (hi : i ∈ occIdx occ) :
    moe.getD a 0 - moe.getD i 0 ∈ eaiSpin moe occ := by
  rw [eaiSpin, List.mem_flatten]
  refine ⟨(occIdx occ).map (fun k => moe.getD a 0 - moe.getD k 0), ?_, ?_⟩
  · exact List.mem_map.mpr ⟨a, ha, rfl⟩
  · exact List.mem_map.mpr ⟨i, hi, rfl⟩

theorem set_concat_length {α : Type*} (l : List α) (a b : α) :
    (l ++ [a]).set l.length b = l ++ [b] := by
  induction l with
  | nil => rfl
  | cons x t ih => simp [List.set, ih]

/-- Claim C7: for every per-spin occupation vector, the excitation space
builder returns as occupied exactly the indices with occupation strictly
greater than 0 and as virtual exactly the indices with occupation equal to 0,
each list in the original ascending orbital order; both builders are total
functions with no error path. -/
theorem excitation_space_partition (occ : List K) (i : Nat) :
    (i ∈ occIdx occ ↔ i < occ.length ∧ 0 < occ.getD i 0) ∧
    (i ∈ virIdx occ ↔ i < occ.length ∧ occ.getD i 0 = 0) ∧
    (occIdx occ).Pairwise (· < ·) ∧ (virIdx occ).Pairwise (· < ·) := by
  refine ⟨?_, ?_, ?_, ?_⟩
  · rw [occIdx, List.mem_filter, List.mem_range, decide_eq_true_eq]
  · rw [virIdx, List.mem_filter, List.mem_range, decide_eq_true_eq]
  · exact (List.pairwise_lt_range occ.length).filter _
  · exact (List.pairwise_lt_range occ.length).filter _

/-- Claim C5: the diagonal basis built once per `get_vind` call: `e_ai` is the
alpha-then-beta concatenation of virtual-minus-occupied orbital energy
differences, masked entries are zeroed in `e_ai` before any derived quantity
(in particular `dai` applies the square root to the already-zeroed entry),
then `dai = sqrt(e_ai)`, `edai = e_ai * dai` and `hdiag = e_ai ** 2`
elementwise; without an active mask `e_ai` is the raw concatenation. -/
theorem get_vind_diagonal_basis (sqrt : K → K) (mf : MeanField K)
    (orbsym : List Nat × List Nat) (w : Nat) :
    (get_vind_env sqrt mf (some w) true orbsym).e_ai =
      maskZero (symForbidSpin orbsym.1 mf.mo_occ.1 w ++ symForbidSpin orbsym.2 mf.mo_occ.2 w)
        (eaiSpin mf.mo_energy.1 mf.mo_occ.1 ++ eaiSpin mf.mo_energy.2 mf.mo_occ.2) ∧
    (∀ wfnsym molSymmetry,
      (get_vind_env sqrt mf wfnsym molSymmetry orbsym).dai =
        (get_vind_env sqrt mf wfnsym molSymmetry orbsym).e_ai.map sqrt ∧
      (get_vind_env sqrt mf wfnsym molSymmetry orbsym).edai =
        List.zipWith (· * ·) (get_vind_env sqrt mf wfnsym molSymmetry orbsym).e_ai
          ((get_vind_env sqrt mf wfnsym molSymmetry orbsym).e_ai.map sqrt) ∧
      (get_vind_env sqrt mf wfnsym molSymmetry orbsym).hdiag =
        (get_vind_env sqrt mf wfnsym molSymmetry orbsym).e_ai.map (fun x => x ^ 2)) ∧
    (∀ j, j < (eaiSpin mf.mo_energy.1 mf.mo_occ.1 ++ eaiSpin mf.mo_energy.2 mf.mo_occ.2).length →
      j < (symForbidSpin orbsym.1 mf.mo_occ.1 w ++ symForbidSpin orbsym.2 mf.mo_occ.2 w).length →
      (symForbidSpin orbsym.1 mf.mo_occ.1 w ++ symForbidSpin orbsym.2 mf.mo_occ.2 w).getD j false
          = true →
      (get_vind_env sqrt mf (some w) true orbsym).e_ai.getD j 0 = 0 ∧
      (get_vind_env sqrt mf (some w) true orbsym).dai.getD j 0 = sqrt 0) ∧
    (∀ a ∈ virIdx mf.mo_occ.1, ∀ i ∈ occIdx mf.mo_occ.1,
      mf.mo_energy.1.getD a 0 - mf.mo_energy.1.getD i 0 ∈ eaiSpin mf.mo_energy.1 mf.mo_occ.1) ∧
    (get_vind_env sqrt mf none true orbsym).e_ai =
      eaiSpin mf.mo_energy.1 mf.mo_occ.1 ++ eaiSpin mf.mo_energy.2 mf.mo_occ.2 ∧
    (get_vind_env sqrt mf (some w) false orbsym).e_ai =
      eaiSpin mf.mo_energy.1 mf.mo_occ.1 ++ eaiSpin mf.mo_energy.2 mf.mo_occ.2 := by
  refine ⟨rfl, ?_, ?_, ?_, rfl, rfl⟩
  · intro wfnsym molSymmetry
    exact ⟨rfl, rfl, rfl⟩
  · intro j hv hm ht
    have hz : (get_vind_env sqrt mf (some w) true orbsym).e_ai.getD j 0 = 0 :=
      maskZero_getD_of_true _ _ j hv hm ht
    refine ⟨hz, ?_⟩
    have hlen : j < (get_vind_env sqrt mf (some w) true orbsym).e_ai.length := by
      show j < (maskZero _ _).length
      rw [length_maskZero]
      exact lt_min hv hm
    rw [show (get_vind_env sqrt mf (some w) true orbsym).dai
          = (get_vind_env sqrt mf (some w) true orbsym).e_ai.map sqrt from rfl,
      getD_map_of_lt sqrt _ j 0 0 hlen, hz]
  · intro a ha i hi
    exact eaiSpin_mem mf.mo_energy.1 mf.mo_occ.1 a i ha hi

/-- Claim C4: whenever the symmetry mask is active, every invocation of the
linear-response operator first zeroes the trial vectors at every masked
position (on a copy) and only then hands them to the operator body that
performs the rescale by `d`; hence the batch the body processes is zero at
every symmetry-forbidden position regardless of what the solver supplied. -/
theorem vind_masks_trials_before_scaling
    (resp : List (List (List K) × List (List K)) → List (List K))
    (env : VindEnv K) (m : List Bool) (zs : List (List K))
    (hm : env.sym_forbid = some m) :
    vind resp env zs = vindCore resp env (zs.map (maskZero m)) ∧
    ∀ z ∈ zs.map (maskZero m), ∀ j, j < z.length → m.getD j false = true →
      z.getD j 0 = 0 := by
  constructor
  · rw [vind, hm, maskTrials]
  · intro z hz j hj ht
    rcases List.mem_map.mp hz with ⟨z0, _, rfl⟩
    rw [length_maskZero] at hj
    exact maskZero_getD_of_true m z0 j (lt_of_lt_of_le hj (min_le_left _ _))
      (lt_of_lt_of_le hj (min_le_right _ _)) ht

/-- Witness for claim C4 at a concrete input: a one-vector batch `[[5]]` with
the single position masked is zeroed at that position. -/
theorem vind_masks_trials_before_scaling_witness :
    (maskZero [true] [(5 : ℝ)]).getD 0 0 = 0 := by
  have h := vind_masks_trials_before_scaling (K := ℝ) (fun _ => [])
    { e_ai := [0], dai := [0], edai := [0], hdiag := [0], sym_forbid := some [true],
      nocca := 1, noccb := 0, nvira := 1, nvirb := 0,
      orboa := [], orbob := [], orbva := [], orbvb := [] }
    [true] [[5]] rfl
  refine h.2 (maskZero [true] [(5 : ℝ)]) ?_ 0 ?_ rfl
  · simp
  · rw [length_maskZero]
    norm_num

/-- Claim C8: one invocation of the operator, rendered with numpy's object
mutation explicit, never writes into any pre-existing array: the heap prefix
the caller knows is returned unchanged (the masked zeroing happens in a fresh
copy appended at the end), without an active mask the heap is untouched, and
the returned batch is exactly the pure value of the operator on the caller's
batch; the captured environment is read-only by construction (no write to it
appears in the code, so it is passed by value). -/
theorem vind_no_mutation
    (resp : List (List (List K) × List (List K)) → List (List K))
    (env : VindEnv K) (heap : List (List (List K))) (r : Nat) :
    ((vindHeap resp env heap r).1).take heap.length = heap ∧
    (vindHeap resp env heap r).2 = vind resp env (heap.getD r []) ∧
    (env.sym_forbid = none → (vindHeap resp env heap r).1 = heap) := by
  rcases hsf : env.sym_forbid with _ | m
  · refine ⟨?_, ?_, fun _ => ?_⟩
    · rw [vindHeap, hsf]
      exact List.take_length heap
    · rw [vindHeap, hsf, vind, hsf, maskTrials]
    · rw [vindHeap, hsf]
  · have hcur : (heap ++ [heap.getD r []]).getD heap.length [] = heap.getD r [] := by
      have hl : heap.length < (heap ++ [heap.getD r []]).length := by
        simp
      rw [List.getD_eq_getElem _ _ hl]
      exact List.getElem_concat_length heap _ heap.length rfl hl
    have hset : (heap ++ [heap.getD r []]).set heap.length
        (((heap ++ [heap.getD r []]).getD heap.length []).map (maskZero m))
        = heap ++ [(heap.getD r []).map (maskZero m)] := by
      rw [hcur]
      exact set_concat_length heap _ _
    have hget2 : (heap ++ [(heap.getD r []).map (maskZero m)]).getD heap.length []
        = (heap.getD r []).map (maskZero m) := by
      have hl : heap.length < (heap ++ [(heap.getD r []).map (maskZero m)]).length := by
        simp
      rw [List.getD_eq_getElem _ _ hl]
      exact List.getElem_concat_length heap _ heap.length rfl hl
    refine ⟨?_, ?_, fun hc => ?_⟩
    · rw [vindHeap, hsf]
      simp only [hset]
      exact List.take_left heap _
    · rw [vindHeap, hsf]
      simp only [hset, hget2]
      rw [vind, hsf, maskTrials]
    · exact Option.noConfusion hc

/-- Claim C1: for every mean-field state classified hybrid, `kernel` returns
the fatal `RuntimeError` immediately: the result is the error, the event trace
is empty — so `get_vind` is never invoked (no operator, no diagonal basis),
the external eigensolver is never called and no eigenpair is computed — and
the single returned error is the whole behaviour (no retry). -/
theorem hybrid_kernel_rejected (sqrt : K → K) (mf : MeanField K) (molSymmetry : Bool)
    (orbsym : List Nat × List Nat) (dav : Bool × List K × List (List K))
    (nstates0 : Option Nat) (st : TDState K) (hh : mf.xc_hybrid = true) :
    kernel sqrt mf molSymmetry orbsym dav nstates0 st =
      (Except.error "TDDFTNoHybrid cannot be used with hybrid functional",
       ([] : List (KEvent K))) := by
  unfold kernel
  rw [if_pos hh]

/-- Witness for claim C1 at a concrete hybrid mean-field state. -/
theorem hybrid_kernel_rejected_witness :
    kernel (K := ℝ) Real.sqrt
      { mo_coeff := ([], []), mo_energy := ([], []), mo_occ := ([], []), xc_hybrid := true }
      false ([], []) (true, [], []) none
      { nstates := 3, wfnsym := none, converged := false, e := [], xy := [],
        chk_e := none, chk_xy := none } =
      (Except.error "TDDFTNoHybrid cannot be used with hybrid functional", []) :=
  hybrid_kernel_rejected Real.sqrt _ false ([], []) (true, [], []) none _ rfl

/-- Claim C9: when the external diagonalization primitive reports
non-convergence (`converged = false`), the driver does not fail: it still runs
the eigenpair reconstruction on the returned eigenvalues and eigenvectors,
records `converged = false` on the solver object, stores and checkpoints the
resulting energies and amplitude pairs, and returns them. -/
theorem kernel_nonconverged_still_returns (sqrt : K → K) (mf : MeanField K)
    (molSymmetry : Bool) (orbsym : List Nat × List Nat) (w2 : List K)
    (x1 : List (List K)) (nstates0 : Option Nat) (st : TDState K)
    (hh : mf.xc_hybrid = false) :
    kernel sqrt mf molSymmetry orbsym (false, w2, x1) nstates0 st =
      (let st1 := match nstates0 with
        | none => st
        | some n => { st with nstates := n }
       let prs := reconPairs sqrt ((kernelEai mf).map sqrt)
          (occIdx mf.mo_occ.1).length (virIdx mf.mo_occ.1).length
          (occIdx mf.mo_occ.2).length (virIdx mf.mo_occ.2).length w2 x1
       (Except.ok ({ st1 with
            converged := false
            e := prs.map Prod.fst
            xy := prs.map Prod.snd
            chk_e := some (prs.map Prod.fst)
            chk_xy := some (prs.map Prod.snd) },
          prs.map Prod.fst, prs.map Prod.snd),
        [KEvent.getVind (get_vind_env sqrt mf st1.wfnsym molSymmetry orbsym),
         KEvent.davidson false w2, KEvent.reconstruct prs.length, KEvent.chkSave])) := by
  unfold kernel
  rw [if_neg]
  rw [hh]
  simp

/-- Witness for claim C9 at a concrete non-hybrid state and a non-converged
solver outcome. -/
theorem kernel_nonconverged_still_returns_witness :
    kernel (K := ℝ) Real.sqrt
      { mo_coeff := ([], []), mo_energy := ([], []), mo_occ := ([], []), xc_hybrid := false }
      false ([], []) (false, [], []) none
      { nstates := 3, wfnsym := none, converged := true, e := [], xy := [],
        chk_e := none, chk_xy := none } =
      (let mf : MeanField ℝ :=
        { mo_coeff := ([], []), mo_energy := ([], []), mo_occ := ([], []), xc_hybrid := false }
       let st : TDState ℝ :=
        { nstates := 3, wfnsym := none, converged := true, e := [], xy := [],
          chk_e := none, chk_xy := none }
       let prs := reconPairs Real.sqrt ((kernelEai mf).map Real.sqrt)
          (occIdx mf.mo_occ.1).length (virIdx mf.mo_occ.1).length
          (occIdx mf.mo_occ.2).length (virIdx mf.mo_occ.2).length [] []
       (Except.ok ({ st with
            converged := false
            e := prs.map Prod.fst
            xy := prs.map Prod.snd
            chk_e := some (prs.map Prod.fst)
            chk_xy := some (prs.map Prod.snd) },
          prs.map Prod.fst, prs.map Prod.snd),
        [KEvent.getVind (get_vind_env Real.sqrt mf st.wfnsym false ([], [])),
         KEvent.davidson false [], KEvent.reconstruct prs.length, KEvent.chkSave])) :=
  kernel_nonconverged_still_returns Real.sqrt _ false ([], []) [] [] none _ rfl

theorem xOf_eq_yOf_of_sqrt_w2_zero (sqrt : K → K) (eai z : List K) (w2 : K)
    (hs : sqrt w2 = 0) : xOf sqrt eai w2 z = yOf sqrt eai w2 z := by
  induction eai generalizing z with
  | nil => rfl
  | cons e t ih =>
      cases z with
      | nil => rfl
      | cons zh zt =>
          simp only [xOf, yOf, zpOf, zmOf, List.zipWith_cons_cons, hs, zero_div,
            zero_mul, add_zero, sub_zero] at ih ⊢
          rw [List.cons_inj_right]
          exact ih zt

theorem reconNorm_of_sqrt_w2_zero (sqrt : K → K) (eai z : List K) (w2 : K)
    (hs : sqrt w2 = 0) : reconNorm sqrt eai w2 z = 0 := by
  rw [reconNorm, xOf_eq_yOf_of_sqrt_w2_zero sqrt eai z w2 hs, sub_self]

/-- Claim C2: the reconstruction result set, over any solver output: its size
is at most the number of returned reduced eigenvalues, any pair with a
non-positive reduced eigenvalue contributes nothing (`w2 < 0` is skipped
outright; `w2 = 0` yields `x = y`, hence zero norm, and fails the norm test),
and any pair with non-positive reconstructed norm contributes nothing; all
exclusions deliver `none`, a silent skip rather than an error value. -/
theorem recon_discards_nonpositive_modes (eai : List ℝ) (nocca nvira noccb nvirb : Nat)
    (w2s : List ℝ) (x1 : List (List ℝ)) :
    (reconPairs Real.sqrt eai nocca nvira noccb nvirb w2s x1).length ≤ w2s.length ∧
    (∀ w2 z, w2 ≤ 0 →
      reconStep Real.sqrt eai nocca nvira noccb nvirb w2 z = none) ∧
    (∀ w2 z, reconNorm Real.sqrt eai w2 z ≤ 0 →
      reconStep Real.sqrt eai nocca nvira noccb nvirb w2 z = none) := by
  refine ⟨?_, ?_, ?_⟩
  · calc (reconPairs Real.sqrt eai nocca nvira noccb nvirb w2s x1).length
        ≤ (w2s.zip x1).length := List.length_filterMap_le _ _
    _ ≤ w2s.length := by
        rw [List.length_zip]
        exact min_le_left _ _
  · intro w2 z hw
    rcases lt_or_eq_of_le hw with hlt | heq
    · rw [reconStep, if_pos hlt]
    · have hz : reconNorm Real.sqrt eai w2 z = 0 :=
        reconNorm_of_sqrt_w2_zero Real.sqrt eai z w2 (by rw [heq]; exact Real.sqrt_zero)
      rw [reconStep, if_neg (by rw [heq]; exact lt_irrefl 0),
        if_neg (by rw [hz]; exact lt_irrefl 0)]
  · intro w2 z hn
    by_cases hlt : w2 < 0
    · rw [reconStep, if_pos hlt]
    · rw [reconStep, if_neg hlt, if_neg (not_lt.mpr hn)]

/-- Claim C3: every accepted eigenpair satisfies the normalization invariant
exactly in real arithmetic: given a positive pre-rescale norm
`||x||^2 - ||y||^2` and shape-consistent inputs, the stored amplitude blocks
(rescaled by `1/sqrt(norm)`) obey
`sum(X_alpha^2) + sum(X_beta^2) - (sum(Y_alpha^2) + sum(Y_beta^2)) = 1`. -/
theorem accepted_pair_normalization (eai : List ℝ) (nocca nvira noccb nvirb : Nat)
    (w2 : ℝ) (z : List ℝ)
    (hlen : z.length = eai.length)
    (hsh : eai.length = nocca * nvira + nvirb * noccb)
    (hn : 0 < reconNorm Real.sqrt eai w2 z) :
    sumSqM (acceptedPair Real.sqrt eai nocca nvira noccb nvirb w2 z).xa +
      sumSqM (acceptedPair Real.sqrt eai nocca nvira noccb nvirb w2 z).xb -
      (sumSqM (acceptedPair Real.sqrt eai nocca nvira noccb nvirb w2 z).ya +
       sumSqM (acceptedPair Real.sqrt eai nocca nvira noccb nvirb w2 z).yb) = 1 := by
  set x := xOf Real.sqrt eai w2 z with hx
  set y := yOf Real.sqrt eai w2 z with hy
  set c := 1 / Real.sqrt (reconNorm Real.sqrt eai w2 z) with hc
  have hxl : x.length = nocca * nvira + nvirb * noccb := by
    rw [hx, length_xOf, hlen, min_self, hsh]
  have hyl : y.length = nocca * nvira + nvirb * noccb := by
    rw [hy, length_yOf, hlen, min_self, hsh]
  have hsplit : ∀ v : List ℝ, v.length = nocca * nvira + nvirb * noccb →
      sumSqM (scaleM c (reshapeM nvira nocca (v.take (nocca * nvira)))) +
        sumSqM (scaleM c (reshapeM nvirb noccb (v.drop (nocca * nvira)))) =
      sumSq v * c ^ 2 := by
    intro v hv
    have h1 : (v.take (nocca * nvira)).take (nvira * nocca) = v.take (nocca * nvira) := by
      rw [List.take_take, Nat.mul_comm nvira nocca, min_self]
    have h2 : (v.drop (nocca * nvira)).take (nvirb * noccb) = v.drop (nocca * nvira) :=
      List.take_of_length_le (by rw [List.length_drop]; omega)
    rw [sumSqM_scaleM, sumSqM_scaleM, sumSqM_reshapeM, sumSqM_reshapeM, h1, h2,
      ← add_mul, ← sumSq_append, List.take_append_drop]
  have hxa : sumSqM (acceptedPair Real.sqrt eai nocca nvira noccb nvirb w2 z).xa +
      sumSqM (acceptedPair Real.sqrt eai nocca nvira noccb nvirb w2 z).xb =
      sumSq x * c ^ 2 := hsplit x hxl
  have hya : sumSqM (acceptedPair Real.sqrt eai nocca nvira noccb nvirb w2 z).ya +
      sumSqM (acceptedPair Real.sqrt eai nocca nvira noccb nvirb w2 z).yb =
      sumSq y * c ^ 2 := hsplit y hyl
  have hnv : reconNorm Real.sqrt eai w2 z = sumSq x - sumSq y := by
    rw [reconNorm, libNorm, libNorm, Real.sq_sqrt (sumSq_nonneg _),
      Real.sq_sqrt (sumSq_nonneg _), ← hx, ← hy]
  have hcsq : c ^ 2 = 1 / (sumSq x - sumSq y) := by
    rw [hc, div_pow, one_pow, Real.sq_sqrt (le_of_lt hn), hnv]
  have hpos : 0 < sumSq x - sumSq y := by rw [← hnv]; exact hn
  rw [hxa, hya, ← sub_mul, hcsq, mul_one_div, div_self (ne_of_gt hpos)]

/-- Witness for claim C3: a one-pair system with `eai = [1]`, `z = [1]`,
`w2 = 1` has positive pre-rescale norm, and its accepted pair sums to 1. -/
theorem accepted_pair_normalization_witness :
    0 < reconNorm Real.sqrt [(1 : ℝ)] 1 [1] ∧
    sumSqM (acceptedPair Real.sqrt [(1 : ℝ)] 1 1 0 0 1 [1]).xa +
      sumSqM (acceptedPair Real.sqrt [(1 : ℝ)] 1 1 0 0 1 [1]).xb -
      (sumSqM (acceptedPair Real.sqrt [(1 : ℝ)] 1 1 0 0 1 [1]).ya +
       sumSqM (acceptedPair Real.sqrt [(1 : ℝ)] 1 1 0 0 1 [1]).yb) = 1 := by
  have hn : 0 < reconNorm Real.sqrt [(1 : ℝ)] 1 [1] := by
    norm_num [reconNorm, libNorm, sumSq, xOf, yOf, zpOf, zmOf, Real.sqrt_one]
  exact ⟨hn, accepted_pair_normalization [(1 : ℝ)] 1 1 0 0 1 [1] rfl (by norm_num) hn⟩

/-- Claim C6: for a retained pair (`w2` not negative), the reconstructor
computes elementwise `zp = eai * z`, `zm = (sqrt(w2)/eai) * z`,
`x = (zp + zm)/2`, `y = (zp - zm)/2`, and returns `w = sqrt(w2)` together
with the amplitude blocks built from `x` and `y` whenever the norm test
passes; the vector `eai` it uses is the square root of `kernelEai`, the raw
alpha-then-beta energy differences recomputed without the symmetry mask —
while the operator environment built for the same state under an active mask
carries the masked version of that very vector. -/
theorem recon_formulas_unmasked_eai (sqrt : K → K) (mf : MeanField K)
    (orbsym : List Nat × List Nat) (wsym : Nat)
    (nocca nvira noccb nvirb : Nat) (w2 : K) (z : List K) (hw : ¬ w2 < 0) :
    reconStep sqrt ((kernelEai mf).map sqrt) nocca nvira noccb nvirb w2 z =
      (if 0 < reconNorm sqrt ((kernelEai mf).map sqrt) w2 z then
        some (sqrt w2, acceptedPair sqrt ((kernelEai mf).map sqrt) nocca nvira noccb nvirb w2 z)
      else none) ∧
    (∀ j, j < (zpOf ((kernelEai mf).map sqrt) z).length →
      (zpOf ((kernelEai mf).map sqrt) z).getD j 0 =
        ((kernelEai mf).map sqrt).getD j 0 * z.getD j 0) ∧
    (∀ j, j < (zmOf sqrt ((kernelEai mf).map sqrt) w2 z).length →
      (zmOf sqrt ((kernelEai mf).map sqrt) w2 z).getD j 0 =
        sqrt w2 / ((kernelEai mf).map sqrt).getD j 0 * z.getD j 0) ∧
    (∀ j, j < (xOf sqrt ((kernelEai mf).map sqrt) w2 z).length →
      (xOf sqrt ((kernelEai mf).map sqrt) w2 z).getD j 0 =
        ((zpOf ((kernelEai mf).map sqrt) z).getD j 0 +
         (zmOf sqrt ((kernelEai mf).map sqrt) w2 z).getD j 0) * (1 / 2)) ∧
    (∀ j, j < (yOf sqrt ((kernelEai mf).map sqrt) w2 z).length →
      (yOf sqrt ((kernelEai mf).map sqrt) w2 z).getD j 0 =
        ((zpOf ((kernelEai mf).map sqrt) z).getD j 0 -
         (zmOf sqrt ((kernelEai mf).map sqrt) w2 z).getD j 0) * (1 / 2)) ∧
    kernelEai mf =
      eaiSpin mf.mo_energy.1 mf.mo_occ.1 ++ eaiSpin mf.mo_energy.2 mf.mo_occ.2 ∧
    (get_vind_env sqrt mf (some wsym) true orbsym).e_ai =
      maskZero (symForbidSpin orbsym.1 mf.mo_occ.1 wsym ++
        symForbidSpin orbsym.2 mf.mo_occ.2 wsym) (kernelEai mf) := by
  refine ⟨?_, ?_, ?_, ?_, ?_, rfl, rfl⟩
  · rw [reconStep, if_neg hw]
  · intro j hj
    rw [length_zpOf] at hj
    exact getD_zipWith_of_lt _ _ _ j 0 0 0
      (lt_of_lt_of_le hj (min_le_left _ _)) (lt_of_lt_of_le hj (min_le_right _ _))
  · intro j hj
    rw [length_zmOf] at hj
    exact getD_zipWith_of_lt _ _ _ j 0 0 0
      (lt_of_lt_of_le hj (min_le_left _ _)) (lt_of_lt_of_le hj (min_le_right _ _))
  · intro j hj
    rw [length_xOf] at hj
    have hp : j < (zpOf ((kernelEai mf).map sqrt) z).length := by
      rw [length_zpOf]; exact hj
    have hm : j < (zmOf sqrt ((kernelEai mf).map sqrt) w2 z).length := by
      rw [length_zmOf]; exact hj
    exact getD_zipWith_of_lt _ _ _ j 0 0 0 hp hm
  · intro j hj
    rw [length_yOf] at hj
    have hp : j < (zpOf ((kernelEai mf).map sqrt) z).length := by
      rw [length_zpOf]; exact hj
    have hm : j < (zmOf sqrt ((kernelEai mf).map sqrt) w2 z).length := by
      rw [length_zmOf]; exact hj
    exact getD_zipWith_of_lt _ _ _ j 0 0 0 hp hm

/-- Witness for claim C6 at a concrete retained pair (`w2 = 1`, one alpha
excitation with gap 1, trivial beta channel). -/
theorem recon_formulas_unmasked_eai_witness :
    reconStep Real.sqrt ((kernelEai mfGap).map Real.sqrt) 1 1 0 0 1 [2] =
      (if 0 < reconNorm Real.sqrt ((kernelEai mfGap).map Real.sqrt) 1 [2] then
        some (Real.sqrt 1,
          acceptedPair Real.sqrt ((kernelEai mfGap).map Real.sqrt) 1 1 0 0 1 [2])
      else none) :=
  (recon_formulas_unmasked_eai Real.sqrt mfGap ([], []) 0 1 1 0 0 1 [2] (by norm_num)).1

/-- Claim C10: the elementwise division `zm = (w/eai) * z` of the
reconstruction is unguarded over the unmasked energy-difference vector: at any
position whose raw virtual-minus-occupied gap is zero or negative (and every
same-spin pair with virtual energy at or below an occupied energy produces
such an entry of `kernelEai`, as the membership conjuncts state), the float
square-root vector has a `0` (gap zero) or NaN (gap negative) entry, and for
any retained eigenvector and any `w2 > 0` the computed amplitude vector `x`
is non-finite at that position; no error is raised — the functions are total
over the special-value domain. -/
theorem recon_division_nonfinite (mf : MeanField ℝ) (w2 : ℝ) (z : List ℝ) (j : Nat)
    (hw : 0 < w2)
    (hlen : z.length = (kernelEai mf).length)
    (hj : j < (kernelEai mf).length)
    (ht : (kernelEai mf).getD j 0 ≤ 0) :
    ((eaiF Real.sqrt mf).getD j FP.nan = FP.fin 0 ∨
     (eaiF Real.sqrt mf).getD j FP.nan = FP.nan) ∧
    FP.isFinite ((xF Real.sqrt mf w2 z).getD j FP.nan) = false ∧
    (∀ a ∈ virIdx mf.mo_occ.1, ∀ i ∈ occIdx mf.mo_occ.1,
      mf.mo_energy.1.getD a 0 - mf.mo_energy.1.getD i 0 ∈ eaiSpin mf.mo_energy.1 mf.mo_occ.1) ∧
    (∀ a ∈ virIdx mf.mo_occ.2, ∀ i ∈ occIdx mf.mo_occ.2,
      mf.mo_energy.2.getD a 0 - mf.mo_energy.2.getD i 0 ∈ eaiSpin mf.mo_energy.2 mf.mo_occ.2) := by
  have hjz : j < z.length := by rw [hlen]; exact hj
  have hje : j < (eaiF Real.sqrt mf).length := by
    rw [eaiF, List.length_map]; exact hj
  have hjzf : j < (z.map (FP.fin (K := ℝ))).length := by
    rw [List.length_map]; exact hjz
  have he : (eaiF Real.sqrt mf).getD j FP.nan =
      FP.sqrtf Real.sqrt (FP.fin ((kernelEai mf).getD j 0)) :=
    getD_map_of_lt _ (kernelEai mf) j FP.nan 0 hj
  have hzf : (z.map (FP.fin (K := ℝ))).getD j FP.nan = FP.fin (z.getD j 0) :=
    getD_map_of_lt _ z j FP.nan 0 hjz
  have hzp : (zpF Real.sqrt mf z).getD j FP.nan =
      FP.mul ((eaiF Real.sqrt mf).getD j FP.nan) (FP.fin (z.getD j 0)) := by
    rw [zpF, getD_zipWith_of_lt FP.mul _ _ j FP.nan FP.nan FP.nan hje hjzf, hzf]
  have hzm : (zmF Real.sqrt mf w2 z).getD j FP.nan =
      FP.mul (FP.div (wFOf Real.sqrt w2) ((eaiF Real.sqrt mf).getD j FP.nan))
        (FP.fin (z.getD j 0)) := by
    rw [zmF, getD_zipWith_of_lt _ _ _ j FP.nan FP.nan FP.nan hje hjzf, hzf]
  have hjp : j < (zpF Real.sqrt mf z).length := by
    rw [zpF, List.length_zipWith]
    exact lt_min hje hjzf
  have hjm : j < (zmF Real.sqrt mf w2 z).length := by
    rw [zmF, List.length_zipWith]
    exact lt_min hje hjzf
  have hx : (xF Real.sqrt mf w2 z).getD j FP.nan =
      FP.mul (FP.add ((zpF Real.sqrt mf z).getD j FP.nan)
        ((zmF Real.sqrt mf w2 z).getD j FP.nan)) (FP.fin (1 / 2)) := by
    rw [xF, getD_zipWith_of_lt _ _ _ j FP.nan FP.nan FP.nan hjp hjm]
  have hwf : wFOf Real.sqrt w2 = FP.fin (Real.sqrt w2) := by
    rw [wFOf, FP.sqrtf, if_neg (not_lt.mpr (le_of_lt hw))]
  have hsw : 0 < Real.sqrt w2 := Real.sqrt_pos.mpr hw
  have hmem : (∀ a ∈ virIdx mf.mo_occ.1, ∀ i ∈ occIdx mf.mo_occ.1,
      mf.mo_energy.1.getD a 0 - mf.mo_energy.1.getD i 0
        ∈ eaiSpin mf.mo_energy.1 mf.mo_occ.1) ∧
      (∀ a ∈ virIdx mf.mo_occ.2, ∀ i ∈ occIdx mf.mo_occ.2,
      mf.mo_energy.2.getD a 0 - mf.mo_energy.2.getD i 0
        ∈ eaiSpin mf.mo_energy.2 mf.mo_occ.2) :=
    ⟨fun a ha i hi => eaiSpin_mem _ _ a i ha hi,
     fun a ha i hi => eaiSpin_mem _ _ a i ha hi⟩
  rcases lt_or_eq_of_le ht with hlt | heq
  · -- negative gap: the square root is NaN and everything downstream is NaN
    have hnan : (eaiF Real.sqrt mf).getD j FP.nan = FP.nan := by
      rw [he, FP.sqrtf, if_pos hlt]
    refine ⟨Or.inr hnan, ?_, hmem.1, hmem.2⟩
    rw [hx, hzp, hzm, hnan, hwf]
    rfl
  · -- zero gap: the square root is 0, the division yields infinity
    have hfin0 : (eaiF Real.sqrt mf).getD j FP.nan = FP.fin 0 := by
      rw [he, heq, FP.sqrtf, if_neg (lt_irrefl (0 : ℝ)), Real.sqrt_zero]
    refine ⟨Or.inl hfin0, ?_, hmem.1, hmem.2⟩
    have hdiv : FP.div (wFOf Real.sqrt w2) (FP.fin 0) = FP.inf := by
      rw [hwf, FP.div, if_pos rfl, if_neg (ne_of_gt hsw), if_pos hsw]
    rw [hx, hzp, hzm, hfin0, hdiv]
    rcases lt_trichotomy (z.getD j 0) 0 with hz | hz | hz
    · have hm : FP.mul FP.inf (FP.fin (z.getD j 0)) = FP.ninf := by
        rw [FP.mul, if_neg (ne_of_lt hz), if_neg (not_lt.mpr (le_of_lt hz))]
      rw [hm]
      show FP.isFinite (FP.mul (FP.ninf) (FP.fin ((1 : ℝ) / 2))) = false
      rw [FP.mul, if_neg (by norm_num), if_pos (by norm_num)]
      rfl
    · have hm : FP.mul FP.inf (FP.fin (z.getD j 0)) = FP.nan := by
        rw [FP.mul, if_pos hz]
      rw [hm]
      rfl
    · have hm : FP.mul FP.inf (FP.fin (z.getD j 0)) = FP.inf := by
        rw [FP.mul, if_neg (ne_of_gt hz), if_pos hz]
      rw [hm]
      show FP.isFinite (FP.mul (FP.inf) (FP.fin ((1 : ℝ) / 2))) = false
      rw [FP.mul, if_neg (by norm_num), if_pos (by norm_num)]
      rfl

/-- Witness for claim C10: in the inverted-gap state the virtual orbital lies
below the occupied one, and the reconstructed amplitude entry is non-finite. -/
theorem recon_division_nonfinite_witness :
    FP.isFinite ((xF Real.sqrt mfInverted 1 [0]).getD 0 FP.nan) = false := by
  have hk : kernelEai mfInverted = [-1] := by
    norm_num [kernelEai, eaiSpin, occIdx, virIdx, mfInverted, List.range_succ,
      List.filter_append, List.filter_cons]
  exact (recon_division_nonfinite mfInverted 1 [0] 0 (by norm_num)
    (by rw [hk]; rfl) (by rw [hk]; norm_num) (by rw [hk]; norm_num)).2.1

end TDUKS
